import Mathlib

/-!
Verification of the SSE streaming decoder of the aiyou Go SDK (`stream.go`).

Bytes are modelled as `Nat` (values 0..255), byte slices as `List Nat`, and
Go strings as their byte sequences.  The underlying `io.Reader` is modelled
as a list of chunks (the successive non-erroring `Read` results) followed by
a terminal condition `Err` (clean `io.EOF` or a transport error).
`bufio.Reader.ReadBytes` over that stream is modelled by `readLine`;
`readEvent` and `processStream` mirror the two functions of `stream.go`.
-/

/-- Terminal condition of the underlying byte stream, and the error values
`processStream` can return.  `eof` models `io.EOF`, `corrupted` models
`ErrStreamCorrupted` from the package's error list, `other n` models any
other distinct transport error value. -/
inductive Err where
  | eof : Err
  | corrupted : Err
  | other : Nat → Err
deriving DecidableEq

/-- ASCII whitespace recognised by `bytes.TrimSpace` on ASCII input:
tab, newline, vertical tab, form feed, carriage return, space. -/
def isAsciiSpace (b : Nat) : Bool :=
  b == 9 || b == 10 || b == 11 || b == 12 || b == 13 || b == 32

/-- Model of `bytes.TrimSpace` (exact for byte slices without multi-byte
Unicode whitespace, which is all this wire format produces): drop ASCII
whitespace from both ends. -/
def trimSpace (bs : List Nat) : List Nat :=
  ((bs.dropWhile isAsciiSpace).reverse.dropWhile isAsciiSpace).reverse

/-- The six bytes of the SSE data-field marker checked by
`bytes.HasPrefix(line, []byte("data: "))`: `d a t a : space`. -/
def dataMark : List Nat := [100, 97, 116, 97, 58, 32]

/-- The bytes of the terminator sentinel payload compared by
`string(data) == "[DONE]"`. -/
def doneBytes : List Nat := [91, 68, 79, 78, 69, 93]

/-- Split a byte list at the first newline (byte 10): returns the first
line including its terminating newline together with the remainder, or
`none` when no newline is present. -/
def splitAtNL : List Nat → Option (List Nat × List Nat)
  | [] => none
  | b :: bs =>
    if b = 10 then some ([10], bs)
    else
      match splitAtNL bs with
      | some (l, r) => some (b :: l, r)
      | none => none

/-- Split a byte list into its complete newline-terminated lines and the
trailing newline-free partial line. -/
def splitLinesP : List Nat → List (List Nat) × List Nat
  | [] => ([], [])
  | b :: bs =>
    let (ls, p) := splitLinesP bs
    if b = 10 then ([10] :: ls, p)
    else
      match ls with
      | l :: ls2 => ((b :: l) :: ls2, p)
      | [] => ([], b :: p)

/-- Model of one `bufio.Reader.ReadBytes('\n')` call over a chunked stream:
`buffered` is the reader's internal buffer, `chunks` the pending `Read`
results of the underlying reader, `t` its terminal condition.  Returns the
`(line, error)` pair of `ReadBytes` together with the reader state after the
call.  When no newline can be found the data read so far is returned with
the terminal condition, exactly as `bufio` does. -/
def readLine : List Nat → List (List Nat) → Err →
    (List Nat × Option Err) × (List Nat × List (List Nat))
  | buffered, chunks, t =>
    match splitAtNL buffered with
    | some (l, r) => ((l, none), (r, chunks))
    | none =>
      match chunks with
      | [] => ((buffered, some t), ([], []))
      | c :: cs => readLine (buffered ++ c) cs t

/-- Iterate `readLine` until it reports the terminal condition, collecting
the complete lines delivered and the final partial line that accompanies
the terminal condition.  The fuel argument only bounds the iteration; it is
always called with enough fuel (one unit per line is ample since every
complete line consumes at least one buffered byte or one chunk). -/
def readLinesLoop : Nat → List Nat → List (List Nat) → Err →
    List (List Nat) × List Nat
  | 0, b, _, _ => ([], b)
  | f + 1, b, cs, t =>
    match readLine b cs t with
    | ((l, none), (b2, cs2)) =>
      let (ls, p) := readLinesLoop f b2 cs2 t
      (l :: ls, p)
    | ((l, some _), _) => ([], l)

/-- All `ReadBytes('\n')` results over a chunked stream: the complete lines
in order, then the partial line returned together with the terminal
condition. -/
def readLines (buffered : List Nat) (chunks : List (List Nat)) (t : Err) :
    List (List Nat) × List Nat :=
  readLinesLoop (buffered.length + chunks.flatten.length + chunks.length + 1)
    buffered chunks t

/-! ### Basic lemmas about line splitting -/

theorem splitAtNL_some {bs l r : List Nat}
    (h : splitAtNL bs = some (l, r)) : l ++ r = bs ∧ l ≠ [] := by
  induction bs generalizing l r with
  | nil => simp [splitAtNL] at h
  | cons b bs ih =>
    by_cases hb : b = 10
    · subst hb
      simp [splitAtNL] at h
      obtain ⟨h1, h2⟩ := h
      subst h1; subst h2
      simp
    · simp only [splitAtNL, if_neg hb] at h
      cases hsp : splitAtNL bs with
      | none => rw [hsp] at h; simp at h
      | some p =>
        obtain ⟨l2, r2⟩ := p
        rw [hsp] at h
        simp at h
        obtain ⟨h1, h2⟩ := h
        subst h1; subst h2
        obtain ⟨ih1, ih2⟩ := ih hsp
        constructor
        · simp [← ih1]
        · simp

theorem splitAtNL_none {bs : List Nat} (h : splitAtNL bs = none) :
    (10 : Nat) ∉ bs := by
  induction bs with
  | nil => simp
  | cons b bs ih =>
    by_cases hb : b = 10
    · subst hb; simp [splitAtNL] at h
    · simp only [splitAtNL, if_neg hb] at h
      cases hsp : splitAtNL bs with
      | none =>
        simp only [List.mem_cons, not_or]
        exact ⟨fun hc => hb hc.symm, ih hsp⟩
      | some p => rw [hsp] at h; obtain ⟨l2, r2⟩ := p; simp at h

theorem splitAtNL_none_of_no_nl {bs : List Nat} (h : (10 : Nat) ∉ bs) :
    splitAtNL bs = none := by
  induction bs with
  | nil => rfl
  | cons b bs ih =>
    have hb : b ≠ 10 := by intro hc; exact h (by simp [hc])
    have hbs : (10 : Nat) ∉ bs := fun hc => h (by simp [hc])
    simp only [splitAtNL, if_neg hb, ih hbs]

theorem splitAtNL_append_some {xs ys l r : List Nat}
    (h : splitAtNL xs = some (l, r)) :
    splitAtNL (xs ++ ys) = some (l, r ++ ys) := by
  induction xs generalizing l r with
  | nil => simp [splitAtNL] at h
  | cons b bs ih =>
    by_cases hb : b = 10
    · subst hb
      simp [splitAtNL] at h
      obtain ⟨h1, h2⟩ := h
      subst h1; subst h2
      simp [splitAtNL]
    · simp only [splitAtNL, if_neg hb] at h
      cases hsp : splitAtNL bs with
      | none => rw [hsp] at h; simp at h
      | some p =>
        obtain ⟨l2, r2⟩ := p
        rw [hsp] at h
        simp at h
        obtain ⟨h1, h2⟩ := h
        subst h1; subst h2
        simp only [List.cons_append, splitAtNL, if_neg hb, List.append_eq, ih hsp]

theorem splitAtNL_of_no_nl {xs : List Nat} (ys : List Nat)
    (h : (10 : Nat) ∉ xs) :
    splitAtNL (xs ++ 10 :: ys) = some (xs ++ [10], ys) := by
  induction xs with
  | nil => simp [splitAtNL]
  | cons b bs ih =>
    have hb : b ≠ 10 := by intro hc; exact h (by simp [hc])
    have hbs : (10 : Nat) ∉ bs := fun hc => h (by simp [hc])
    simp only [List.cons_append, splitAtNL, if_neg hb, List.append_eq, ih hbs]

/-- Characterisation of `splitLinesP` via `splitAtNL`: no newline means no
complete line. -/
theorem splitLinesP_of_none {bs : List Nat} (h : splitAtNL bs = none) :
    splitLinesP bs = ([], bs) := by
  induction bs with
  | nil => rfl
  | cons b bs ih =>
    by_cases hb : b = 10
    · subst hb; simp [splitAtNL] at h
    · simp only [splitAtNL, if_neg hb] at h
      cases hsp : splitAtNL bs with
      | none =>
        simp only [splitLinesP, ih hsp, if_neg hb]
      | some p => rw [hsp] at h; obtain ⟨l2, r2⟩ := p; simp at h

/-- Characterisation of `splitLinesP` via `splitAtNL`: the first complete
line is peeled off. -/
theorem splitLinesP_of_some {bs l r : List Nat}
    (h : splitAtNL bs = some (l, r)) :
    splitLinesP bs = (l :: (splitLinesP r).1, (splitLinesP r).2) := by
  induction bs generalizing l r with
  | nil => simp [splitAtNL] at h
  | cons b bs ih =>
    by_cases hb : b = 10
    · subst hb
      simp [splitAtNL] at h
      obtain ⟨h1, h2⟩ := h
      subst h1; subst h2
      simp [splitLinesP]
    · simp only [splitAtNL, if_neg hb] at h
      cases hsp : splitAtNL bs with
      | none => rw [hsp] at h; simp at h
      | some p =>
        obtain ⟨l2, r2⟩ := p
        rw [hsp] at h
        simp at h
        obtain ⟨h1, h2⟩ := h
        subst h1; subst h2
        simp only [splitLinesP, ih hsp, if_neg hb]

/-! ### The chunked bufio model agrees with the flattened byte stream -/

/-- One `ReadBytes` call over a chunked stream behaves exactly like line
splitting of the flattened remaining bytes, and never grows the chunk
list. -/
theorem readLine_flat (cs : List (List Nat)) :
    ∀ (b : List Nat) (t : Err),
    (match splitAtNL (b ++ cs.flatten) with
     | some (l, r) =>
        (readLine b cs t).1 = (l, none) ∧
        (readLine b cs t).2.1 ++ (readLine b cs t).2.2.flatten = r
     | none =>
        (readLine b cs t).1 = (b ++ cs.flatten, some t) ∧
        (readLine b cs t).2 = ([], [])) ∧
    (readLine b cs t).2.2.length ≤ cs.length := by
  induction cs with
  | nil =>
    intro b t
    simp only [List.flatten_nil, List.append_nil]
    cases hsp : splitAtNL b with
    | some p =>
      obtain ⟨l, r⟩ := p
      simp only [readLine, hsp]
      simp
    | none =>
      simp only [readLine, hsp]
      simp
  | cons c cs ih =>
    intro b t
    cases hsp : splitAtNL b with
    | some p =>
      obtain ⟨l, r⟩ := p
      have hap : splitAtNL (b ++ (c :: cs).flatten) = some (l, r ++ (c :: cs).flatten) :=
        splitAtNL_append_some hsp
      simp only [readLine, hsp, hap]
      simp
    | none =>
      have h1 : b ++ (c :: cs).flatten = (b ++ c) ++ cs.flatten := by
        simp [List.flatten_cons, List.append_assoc]
      have hstep : readLine b (c :: cs) t = readLine (b ++ c) cs t := by
        simp only [readLine, hsp]
      rw [hstep, h1]
      obtain ⟨iha, ihb⟩ := ih (b ++ c) t
      refine ⟨iha, ?_⟩
      exact Nat.le_trans ihb (Nat.le_succ _)

/-- Iterated `ReadBytes` over a chunked stream yields exactly the line
decomposition of the flattened bytes, provided the fuel exceeds the obvious
bound. -/
theorem readLinesLoop_flat :
    ∀ (f : Nat) (b : List Nat) (cs : List (List Nat)) (t : Err),
    b.length + cs.flatten.length + cs.length < f →
    readLinesLoop f b cs t = splitLinesP (b ++ cs.flatten) := by
  intro f
  induction f with
  | zero => intro b cs t h; omega
  | succ f ih =>
    intro b cs t h
    have hmain := readLine_flat cs b t
    obtain ⟨hflat, hlen⟩ := hmain
    cases hsp : splitAtNL (b ++ cs.flatten) with
    | none =>
      rw [hsp] at hflat
      obtain ⟨h1, _⟩ := hflat
      rcases hrl : readLine b cs t with ⟨⟨l, e⟩, b2, cs2⟩
      simp only [readLinesLoop]
      rw [hrl] at h1
      simp at h1
      obtain ⟨he1, he2⟩ := h1
      subst he1; subst he2
      rw [hrl]
      simp [splitLinesP_of_none hsp]
    | some p =>
      obtain ⟨l, r⟩ := p
      rw [hsp] at hflat
      obtain ⟨h1, h2⟩ := hflat
      rcases hrl : readLine b cs t with ⟨⟨l2, e⟩, b2, cs2⟩
      rw [hrl] at h1 h2
      simp at h1 h2
      obtain ⟨he1, he2⟩ := h1
      subst he1; subst he2
      rw [hrl] at hlen
      simp at hlen
      simp only [readLinesLoop, hrl]
      obtain ⟨hsum, hne⟩ := splitAtNL_some hsp
      have hr : b2.length + cs2.flatten.length + cs2.length < f := by
        have hlr : l2.length + r.length = b.length + cs.flatten.length := by
          have := congrArg List.length hsum
          simp only [List.length_append] at this
          omega
        have hb2 : b2.length + cs2.flatten.length = r.length := by
          have := congrArg List.length h2
          simp only [List.length_append] at this
          omega
        have hlp : 0 < l2.length := List.length_pos.mpr hne
        omega
      rw [ih b2 cs2 t hr, h2, splitLinesP_of_some hsp]

/-! ### The SSE event framer (`streamReader.readEvent` of `stream.go`) -/

/-- Model of `readEvent`: `buf` is the accumulation buffer (reset by the
caller), `ls` the complete lines still deliverable by `ReadBytes`, and `pt`
the final `(partial line, terminal condition)` pair that `ReadBytes` hands
back once the complete lines are exhausted.  Mirrors the source loop: on a
read error return the flushed buffer at `io.EOF` (discarding the partial
line) or propagate the error; skip comment lines; a blank line returns a
non-empty buffer and is otherwise a no-op; a `data: ` line appends its
trimmed remainder to the buffer; any other line is ignored. -/
def readEvent (buf : List Nat) :
    List (List Nat) → List Nat × Err → Except Err (List Nat) × List (List Nat)
  | [], pt =>
    if pt.2 = Err.eof ∧ buf ≠ [] then (Except.ok buf, []) else (Except.error pt.2, [])
  | l :: ls, pt =>
    if [58].isPrefixOf l then readEvent buf ls pt
    else if trimSpace l = [] then
      if buf ≠ [] then (Except.ok buf, ls) else readEvent buf ls pt
    else if dataMark.isPrefixOf l then
      readEvent (buf ++ trimSpace (l.drop 6)) ls pt
    else readEvent buf ls pt

/-- Sequence of event payloads produced by repeatedly calling `readEvent`
with a reset buffer, until it reports an error (end of stream or transport
failure).  Fuel-bounded; one unit of fuel per successful call is enough
because each returned event consumes at least one line. -/
def eventsLoop : Nat → List (List Nat) → List Nat × Err → List (List Nat)
  | 0, _, _ => []
  | f + 1, ls, pt =>
    match readEvent [] ls pt with
    | (Except.error _, _) => []
    | (Except.ok d, rest) => d :: eventsLoop f rest pt

/-- Event payload sequence over a line stream. -/
def eventsLines (ls : List (List Nat)) (pt : List Nat × Err) : List (List Nat) :=
  eventsLoop (ls.length + 1) ls pt

/-- Event payload sequence over a chunked byte stream with terminal
condition `t`: frame the reads into lines with the bufio model, then run
`readEvent` repeatedly. -/
def eventsStream (cs : List (List Nat)) (t : Err) : List (List Nat) :=
  eventsLines (readLines [] cs t).1 ((readLines [] cs t).2, t)

/-! ### Basic lemmas about `readEvent` -/

theorem readEvent_error_eq {ls : List (List Nat)} :
    ∀ {buf pt e rest}, readEvent buf ls pt = (Except.error e, rest) →
    e = pt.2 ∧ rest = [] := by
  induction ls with
  | nil =>
    intro buf pt e rest h
    simp only [readEvent] at h
    split at h
    · simp at h
    · simp at h
      exact ⟨h.1.symm, h.2⟩
  | cons l ls ih =>
    intro buf pt e rest h
    simp only [readEvent] at h
    split at h
    · exact ih h
    · split at h
      · split at h
        · simp at h
        · exact ih h
      · split at h
        · exact ih h
        · exact ih h

theorem readEvent_nil_nil (pt : List Nat × Err) :
    readEvent [] [] pt = (Except.error pt.2, []) := by
  simp [readEvent]

theorem readEvent_ok_len {ls : List (List Nat)} :
    ∀ {buf pt d rest}, readEvent buf ls pt = (Except.ok d, rest) →
    rest.length < ls.length ∨ ls = [] := by
  induction ls with
  | nil => intro buf pt d rest h; right; rfl
  | cons l ls ih =>
    intro buf pt d rest h
    left
    simp only [readEvent] at h
    have step : ∀ {buf2}, readEvent buf2 ls pt = (Except.ok d, rest) →
        rest.length < (l :: ls).length := by
      intro buf2 h2
      rcases ih h2 with hlt | hnil
      · simp only [List.length_cons]; omega
      · subst hnil
        simp only [readEvent] at h2
        split at h2
        · simp at h2
          obtain ⟨_, h2r⟩ := h2
          subst h2r
          simp
        · simp at h2
    split at h
    · exact step h
    · split at h
      · split at h
        · simp at h
          obtain ⟨_, h2⟩ := h
          subst h2
          simp
        · exact step h
      · split at h
        · exact step h
        · exact step h

theorem readEvent_empty_buf_ok {ls : List (List Nat)} :
    ∀ {pt d rest}, readEvent [] ls pt = (Except.ok d, rest) →
    rest.length < ls.length := by
  intro pt d rest h
  rcases readEvent_ok_len h with hlt | hnil
  · exact hlt
  · subst hnil
    rw [readEvent_nil_nil] at h
    simp at h

/-! ### JSON values and the `encoding/json` decoder for the chunk shape

`processStream` calls `json.Unmarshal(data, &resp)` with
`resp : streamResponse` (declared in the repository's types file:
`Model/ID string`, `Created int64`, `Choices []streamChoice` with
`Index int` and `Delta delta` carrying `Role`/`Content` strings, and an
optional `Usage *usage`).  The decoder below models the standard library's
behaviour for this shape: strict JSON syntax, ASCII case-insensitive field
names, later duplicate keys merging into the same field, `null` leaving a
non-pointer field untouched and clearing a pointer field, and type
mismatches (like a non-integer literal for `created`) making the whole
decode fail. -/
inductive Json where
  | null : Json
  | bool : Bool → Json
  | num : List Nat → Json
  | str : List Nat → Json
  | arr : List Json → Json
  | obj : List (List Nat × Json) → Json

/-- JSON inter-token whitespace: space, tab, newline, carriage return. -/
def skipWS (cs : List Nat) : List Nat :=
  cs.dropWhile (fun b => b == 32 || b == 9 || b == 10 || b == 13)

def hexVal (c : Nat) : Option Nat :=
  if 48 ≤ c ∧ c ≤ 57 then some (c - 48)
  else if 97 ≤ c ∧ c ≤ 102 then some (c - 87)
  else if 65 ≤ c ∧ c ≤ 70 then some (c - 55)
  else none

def hex4 (a b c d : Nat) : Option Nat :=
  match hexVal a, hexVal b, hexVal c, hexVal d with
  | some x, some y, some z, some w => some (x * 4096 + y * 256 + z * 16 + w)
  | _, _, _, _ => none

/-- UTF-8 encoding of a code point, as Go emits it when decoding string
escapes. -/
def utf8Encode (cp : Nat) : List Nat :=
  if cp < 128 then [cp]
  else if cp < 2048 then [192 + cp / 64, 128 + cp % 64]
  else if cp < 65536 then [224 + cp / 4096, 128 + (cp / 64) % 64, 128 + cp % 64]
  else [240 + cp / 262144, 128 + (cp / 4096) % 64, 128 + (cp / 64) % 64, 128 + cp % 64]

/-- JSON string body after the opening quote: returns the decoded bytes and
the input after the closing quote.  Escapes follow Go's `unquoteBytes`:
the short escapes, `\uXXXX` with surrogate-pair combination, lone
surrogates replaced by U+FFFD, raw control bytes rejected. -/
def parseStrF : Nat → List Nat → Option (List Nat × List Nat)
  | 0, _ => none
  | _ + 1, [] => none
  | _ + 1, 34 :: rest => some ([], rest)
  | f + 1, 92 :: e :: rest =>
    if e = 34 ∨ e = 92 ∨ e = 47 then
      (parseStrF f rest).map (fun p => (e :: p.1, p.2))
    else if e = 98 then (parseStrF f rest).map (fun p => (8 :: p.1, p.2))
    else if e = 102 then (parseStrF f rest).map (fun p => (12 :: p.1, p.2))
    else if e = 110 then (parseStrF f rest).map (fun p => (10 :: p.1, p.2))
    else if e = 114 then (parseStrF f rest).map (fun p => (13 :: p.1, p.2))
    else if e = 116 then (parseStrF f rest).map (fun p => (9 :: p.1, p.2))
    else if e = 117 then
      match rest with
      | a :: b :: c :: d :: r2 =>
        match hex4 a b c d with
        | none => none
        | some cp =>
          if 55296 ≤ cp ∧ cp ≤ 56319 then
            match r2 with
            | 92 :: 117 :: a2 :: b2 :: c2 :: d2 :: r3 =>
              match hex4 a2 b2 c2 d2 with
              | some cp2 =>
                if 56320 ≤ cp2 ∧ cp2 ≤ 57343 then
                  (parseStrF f r3).map (fun p =>
                    (utf8Encode (65536 + (cp - 55296) * 1024 + (cp2 - 56320)) ++ p.1, p.2))
                else (parseStrF f r2).map (fun p => (utf8Encode 65533 ++ p.1, p.2))
              | none => (parseStrF f r2).map (fun p => (utf8Encode 65533 ++ p.1, p.2))
            | _ => (parseStrF f r2).map (fun p => (utf8Encode 65533 ++ p.1, p.2))
          else if 56320 ≤ cp ∧ cp ≤ 57343 then
            (parseStrF f r2).map (fun p => (utf8Encode 65533 ++ p.1, p.2))
          else (parseStrF f r2).map (fun p => (utf8Encode cp ++ p.1, p.2))
      | _ => none
    else none
  | _ + 1, [92] => none
  | f + 1, c :: rest =>
    if c < 32 then none
    else (parseStrF f rest).map (fun p => (c :: p.1, p.2))

/-- JSON string body after the opening quote (fuel instantiated: every
recursion step consumes at least one input byte). -/
def parseStr (cs : List Nat) : Option (List Nat × List Nat) :=
  parseStrF (cs.length + 1) cs

def isDigit (b : Nat) : Bool := decide (48 ≤ b ∧ b ≤ 57)

def digitsSpan (cs : List Nat) : List Nat × List Nat :=
  (cs.takeWhile isDigit, cs.dropWhile isDigit)

/-- Optional fraction part of a JSON number literal. -/
def parseFrac : List Nat → Option (List Nat × List Nat)
  | 46 :: r =>
    match digitsSpan r with
    | ([], _) => none
    | (ds, r2) => some (46 :: ds, r2)
  | cs => some ([], cs)

/-- Optional exponent part of a JSON number literal. -/
def parseExp (cs : List Nat) : Option (List Nat × List Nat) :=
  match cs with
  | e :: r =>
    if e = 101 ∨ e = 69 then
      let sr : List Nat × List Nat :=
        match r with
        | 43 :: r2 => ([43], r2)
        | 45 :: r2 => ([45], r2)
        | _ => ([], r)
      match digitsSpan sr.2 with
      | ([], _) => none
      | (ds, r3) => some (e :: (sr.1 ++ ds), r3)
    else some ([], cs)
  | [] => some ([], [])

/-- JSON number literal (strict grammar: no leading zeros, mandatory digits
after `.` and the exponent marker); the raw lexeme is kept so that integer
fields can re-check it the way `strconv.ParseInt` does. -/
def parseNum (cs : List Nat) : Option (Json × List Nat) :=
  let sgn : List Nat × List Nat :=
    match cs with
    | 45 :: r => ([45], r)
    | _ => ([], cs)
  match sgn.2 with
  | [] => none
  | c :: r =>
    if c = 48 then
      match parseFrac r with
      | none => none
      | some (fr, r2) =>
        match parseExp r2 with
        | none => none
        | some (ex, r3) => some (Json.num (sgn.1 ++ [48] ++ fr ++ ex), r3)
    else if isDigit c then
      match parseFrac (digitsSpan r).2 with
      | none => none
      | some (fr, r2) =>
        match parseExp r2 with
        | none => none
        | some (ex, r3) =>
          some (Json.num (sgn.1 ++ (c :: (digitsSpan r).1) ++ fr ++ ex), r3)
    else none

/-- Parser mode: a whole value, the members of an object after `{`, or the
elements of an array after `[`. -/
inductive PMode where
  | val : PMode
  | members : List (List Nat × Json) → PMode
  | elems : List Json → PMode

/-- Recursive-descent JSON parser, fuel-indexed (fuel is decremented on
each nested call; callers supply fuel larger than the input length, which
is always sufficient because every recursion consumes input). -/
def parseP : Nat → PMode → List Nat → Option (Json × List Nat)
  | 0, _, _ => none
  | f + 1, PMode.val, cs0 =>
    match skipWS cs0 with
    | [] => none
    | c :: cs =>
      if c = 123 then
        match skipWS cs with
        | 125 :: cs2 => some (Json.obj [], cs2)
        | _ => parseP f (PMode.members []) cs
      else if c = 91 then
        match skipWS cs with
        | 93 :: cs2 => some (Json.arr [], cs2)
        | _ => parseP f (PMode.elems []) cs
      else if c = 34 then
        (parseStr cs).map (fun p => (Json.str p.1, p.2))
      else if c = 116 then
        if cs.take 3 = [114, 117, 101] then some (Json.bool true, cs.drop 3) else none
      else if c = 102 then
        if cs.take 4 = [97, 108, 115, 101] then some (Json.bool false, cs.drop 4) else none
      else if c = 110 then
        if cs.take 3 = [117, 108, 108] then some (Json.null, cs.drop 3) else none
      else if c = 45 ∨ isDigit c then parseNum (c :: cs)
      else none
  | f + 1, PMode.members acc, cs0 =>
    match skipWS cs0 with
    | 34 :: cs =>
      match parseStr cs with
      | none => none
      | some (k, r1) =>
        match skipWS r1 with
        | 58 :: r2 =>
          match parseP f PMode.val r2 with
          | none => none
          | some (v, r3) =>
            match skipWS r3 with
            | 44 :: r4 => parseP f (PMode.members (acc ++ [(k, v)])) r4
            | 125 :: r4 => some (Json.obj (acc ++ [(k, v)]), r4)
            | _ => none
        | _ => none
    | _ => none
  | f + 1, PMode.elems acc, cs0 =>
    match parseP f PMode.val cs0 with
    | none => none
    | some (v, r1) =>
      match skipWS r1 with
      | 44 :: r2 => parseP f (PMode.elems (acc ++ [v])) r2
      | 93 :: r2 => some (Json.arr (acc ++ [v]), r2)
      | _ => none

/-- Parse a whole JSON document, requiring only whitespace after the value,
as `json.Unmarshal` does. -/
def parseJson (bs : List Nat) : Option Json :=
  match parseP (2 * bs.length + 2) PMode.val bs with
  | some (v, rest) => if skipWS rest = [] then some v else none
  | none => none

/-! ### The chunk struct shape and its decoder -/

/-- Go struct `delta` (`role`, `content` string fields); zero value is the
empty string for both. -/
structure delta where
  Role : List Nat := []
  Content : List Nat := []
deriving DecidableEq

/-- Go struct `streamChoice` (`index int`, `delta delta`). -/
structure streamChoice where
  Index : Int := 0
  Delta : delta := {}
deriving DecidableEq

/-- Go struct `usage` (token counters). -/
structure usage where
  PromptTokens : Int := 0
  CompletionTokens : Int := 0
  TotalTokens : Int := 0
deriving DecidableEq

/-- Go struct `streamResponse` (`model`, `id`, `created`, `choices`,
optional `usage`). -/
structure streamResponse where
  Model : List Nat := []
  ID : List Nat := []
  Created : Int := 0
  Choices : List streamChoice := []
  Usage : Option usage := none
deriving DecidableEq

/-- ASCII lower-casing of a field key, matching `encoding/json`'s
case-insensitive field match against the lowercase struct tags. -/
def asciiLower (bs : List Nat) : List Nat :=
  bs.map (fun c => if 65 ≤ c ∧ c ≤ 90 then c + 32 else c)

/-- Key-to-tag matching used by the decoder. -/
def keyIs (k target : List Nat) : Bool := asciiLower k = target

def digitsToNat (ds : List Nat) : Nat :=
  ds.foldl (fun a d => a * 10 + (d - 48)) 0

/-- Decoding of a JSON number lexeme into a Go `int`/`int64` field, the way
`strconv.ParseInt` treats it: sign and decimal digits only (a fraction or
exponent in the lexeme makes it fail), 64-bit two's-complement range. -/
def decInt64 : List Nat → Option Int
  | 45 :: ds =>
    if ds ≠ [] ∧ ds.all isDigit then
      if digitsToNat ds ≤ 2 ^ 63 then some (-(digitsToNat ds : Int)) else none
    else none
  | ds =>
    if ds ≠ [] ∧ ds.all isDigit then
      if digitsToNat ds < 2 ^ 63 then some ((digitsToNat ds : Int)) else none
    else none

/-- JSON value into a string field: `null` leaves the current value. -/
def decStr (cur : List Nat) : Json → Option (List Nat)
  | Json.str s => some s
  | Json.null => some cur
  | _ => none

/-- JSON value into an integer field: `null` leaves the current value. -/
def decIntField (cur : Int) : Json → Option Int
  | Json.num lex => decInt64 lex
  | Json.null => some cur
  | _ => none

/-- JSON value into the nested `delta` struct, merging into the current
value as `encoding/json` does. -/
def decDelta (cur : delta) : Json → Option delta
  | Json.null => some cur
  | Json.obj kvs =>
    kvs.foldlM
      (fun d kv =>
        if keyIs kv.1 [114, 111, 108, 101] then
          (decStr d.Role kv.2).map (fun s => { d with Role := s })
        else if keyIs kv.1 [99, 111, 110, 116, 101, 110, 116] then
          (decStr d.Content kv.2).map (fun s => { d with Content := s })
        else some d)
      cur
  | _ => none

/-- JSON value into one `streamChoice` element. -/
def decChoice (cur : streamChoice) : Json → Option streamChoice
  | Json.null => some cur
  | Json.obj kvs =>
    kvs.foldlM
      (fun ch kv =>
        if keyIs kv.1 [105, 110, 100, 101, 120] then
          (decIntField ch.Index kv.2).map (fun n => { ch with Index := n })
        else if keyIs kv.1 [100, 101, 108, 116, 97] then
          (decDelta ch.Delta kv.2).map (fun d => { ch with Delta := d })
        else some ch)
      cur
  | _ => none

/-- JSON value into the `choices` slice field. -/
def decChoices (cur : List streamChoice) : Json → Option (List streamChoice)
  | Json.null => some cur
  | Json.arr es => es.mapM (fun e => decChoice {} e)
  | _ => none

/-- JSON value into the `*usage` pointer field (`null` clears it). -/
def decUsage (cur : Option usage) : Json → Option (Option usage)
  | Json.null => some none
  | Json.obj kvs =>
    (kvs.foldlM
      (fun u kv =>
        if keyIs kv.1 [112, 114, 111, 109, 112, 116, 95, 116, 111, 107, 101, 110, 115] then
          (decIntField u.PromptTokens kv.2).map (fun n => { u with PromptTokens := n })
        else if keyIs kv.1
            [99, 111, 109, 112, 108, 101, 116, 105, 111, 110, 95, 116, 111, 107, 101, 110, 115] then
          (decIntField u.CompletionTokens kv.2).map (fun n => { u with CompletionTokens := n })
        else if keyIs kv.1 [116, 111, 116, 97, 108, 95, 116, 111, 107, 101, 110, 115] then
          (decIntField u.TotalTokens kv.2).map (fun n => { u with TotalTokens := n })
        else some u)
      (cur.getD {})).map some
  | _ => none

/-- Top-level decode of a JSON document into `streamResponse`
(`json.Unmarshal(data, &resp)`): must be an object (or `null`, which leaves
the zero value); unknown keys are ignored. -/
def decTop : Json → Option streamResponse
  | Json.null => some {}
  | Json.obj kvs =>
    kvs.foldlM
      (fun r kv =>
        if keyIs kv.1 [109, 111, 100, 101, 108] then
          (decStr r.Model kv.2).map (fun s => { r with Model := s })
        else if keyIs kv.1 [105, 100] then
          (decStr r.ID kv.2).map (fun s => { r with ID := s })
        else if keyIs kv.1 [99, 114, 101, 97, 116, 101, 100] then
          (decIntField r.Created kv.2).map (fun n => { r with Created := n })
        else if keyIs kv.1 [99, 104, 111, 105, 99, 101, 115] then
          (decChoices r.Choices kv.2).map (fun l => { r with Choices := l })
        else if keyIs kv.1 [117, 115, 97, 103, 101] then
          (decUsage r.Usage kv.2).map (fun u => { r with Usage := u })
        else some r)
      {}
  | _ => none

/-- Full model of `json.Unmarshal(data, &resp)` for one event payload:
`none` exactly when `Unmarshal` returns an error, which `processStream`
turns into `ErrStreamCorrupted`. -/
def decodeChunk (bs : List Nat) : Option streamResponse :=
  (parseJson bs).bind decTop

/-! ### The aggregation loop (`processStream` of `stream.go`) -/

/-- The aggregation loop of `processStream`: call `readEvent` with a fresh
buffer; on `io.EOF` return the accumulated result, on another read error
return it with the empty string; skip empty and `[DONE]` payloads; abort
with the corrupted-stream error when a payload fails to decode; otherwise
append every choice's non-empty delta content to the accumulator.
Fuel-bounded with one unit per event, which is always sufficient. -/
def processLoop : Nat → List Nat → List (List Nat) → List Nat × Err →
    List Nat × Option Err
  | 0, acc, _, _ => (acc, none)
  | f + 1, acc, ls, pt =>
    match readEvent [] ls pt with
    | (Except.error e, _) =>
      if e = Err.eof then (acc, none) else ([], some e)
    | (Except.ok d, rest) =>
      if d = [] then processLoop f acc rest pt
      else if d = doneBytes then processLoop f acc rest pt
      else
        match decodeChunk d with
        | none => ([], some Err.corrupted)
        | some c =>
          processLoop f
            (c.Choices.foldl
              (fun a ch => if ch.Delta.Content ≠ [] then a ++ ch.Delta.Content else a)
              acc)
            rest pt

/-- `processStream`'s loop over a line stream, starting from accumulator
`acc`. -/
def processLines (acc : List Nat) (ls : List (List Nat)) (pt : List Nat × Err) :
    List Nat × Option Err :=
  processLoop (ls.length + 1) acc ls pt

/-- Model of `processStream(r, options)` over a chunked byte stream with
terminal condition `t`: returns the final accumulated string (as bytes)
with no error, or the empty string with the classified error.  The debug
printing of the source is pure observability and is not modelled. -/
def processStream (cs : List (List Nat)) (t : Err) : List Nat × Option Err :=
  processLines [] (readLines [] cs t).1 ((readLines [] cs t).2, t)

/-! ### Specification-side views of the aggregation -/

/-- The text contributed by one decoded chunk: its choices' delta contents
concatenated in entry order (empty contents contribute nothing). -/
def specContent (c : streamResponse) : List Nat :=
  (c.Choices.map (fun ch => ch.Delta.Content)).flatten

/-- A payload the aggregator absorbs without error: empty, the terminator
sentinel, or a payload that decodes as a chunk object. -/
abbrev goodPayload (p : List Nat) : Prop :=
  p = [] ∨ p = doneBytes ∨ (decodeChunk p).isSome

/-- Folding an event payload sequence the way the aggregator does: skip
empty and terminator payloads, fail on an undecodable payload, otherwise
prepend the chunk's contribution. -/
def aggEvents : List (List Nat) → Except Unit (List Nat)
  | [] => Except.ok []
  | d :: ds =>
    if d = [] then aggEvents ds
    else if d = doneBytes then aggEvents ds
    else
      match decodeChunk d with
      | none => Except.error ()
      | some c => (aggEvents ds).map (fun r => specContent c ++ r)

/-- The result `processStream` must produce from an event payload sequence
and the stream's terminal condition. -/
def aggResult (evts : List (List Nat)) (t : Err) : List Nat × Option Err :=
  match aggEvents evts with
  | Except.error _ => ([], some Err.corrupted)
  | Except.ok r => if t = Err.eof then (r, none) else ([], some t)

/-- Specification-side contribution of one event payload. -/
def payloadContrib (p : List Nat) : List Nat :=
  if p = [] ∨ p = doneBytes then []
  else
    match decodeChunk p with
    | some c => specContent c
    | none => []

/-- Specification-side payload of one event: the trimmed remainders of its
`data: ` lines, prefix stripped, concatenated without separators. -/
def dataConcat (pre : List (List Nat)) : List Nat :=
  (pre.map (fun l => if dataMark.isPrefixOf l then trimSpace (l.drop 6) else [])).flatten

/-! ### Fuel congruence and unfolding for the two loops -/

theorem eventsLoop_congr :
    ∀ f g ls pt, ls.length < f → ls.length < g →
    eventsLoop f ls pt = eventsLoop g ls pt := by
  intro f
  induction f with
  | zero => intro g ls pt h; omega
  | succ f ih =>
    intro g ls pt hf hg
    cases g with
    | zero => omega
    | succ g =>
      simp only [eventsLoop]
      rcases hre : readEvent [] ls pt with ⟨res, rest⟩
      cases res with
      | error e => rfl
      | ok d =>
        have hlt := readEvent_empty_buf_ok hre
        have h1 : rest.length < f := by omega
        have h2 : rest.length < g := by omega
        simp only [ih g rest pt h1 h2]

theorem processLoop_congr :
    ∀ f g acc ls pt, ls.length < f → ls.length < g →
    processLoop f acc ls pt = processLoop g acc ls pt := by
  intro f
  induction f with
  | zero => intro g acc ls pt h; omega
  | succ f ih =>
    intro g acc ls pt hf hg
    cases g with
    | zero => omega
    | succ g =>
      simp only [processLoop]
      rcases hre : readEvent [] ls pt with ⟨res, rest⟩
      cases res with
      | error e => rfl
      | ok d =>
        have hlt := readEvent_empty_buf_ok hre
        have h1 : rest.length < f := by omega
        have h2 : rest.length < g := by omega
        by_cases hd : d = []
        · simp only [if_pos hd, ih g acc rest pt h1 h2]
        · by_cases hdone : d = doneBytes
          · simp only [if_neg hd, if_pos hdone, ih g acc rest pt h1 h2]
          · simp only [if_neg hd, if_neg hdone]
            cases decodeChunk d with
            | none => rfl
            | some c => simp only [ih g _ rest pt h1 h2]

theorem eventsLines_unfold (ls : List (List Nat)) (pt : List Nat × Err) :
    eventsLines ls pt =
      match readEvent [] ls pt with
      | (Except.error _, _) => []
      | (Except.ok d, rest) => d :: eventsLines rest pt := by
  rcases hre : readEvent [] ls pt with ⟨res, rest⟩
  cases res with
  | error e =>
    show eventsLoop (ls.length + 1) ls pt = _
    simp only [eventsLoop, hre]
  | ok d =>
    have hlt := readEvent_empty_buf_ok hre
    show eventsLoop (ls.length + 1) ls pt = _
    simp only [eventsLoop, hre]
    rw [eventsLoop_congr ls.length (rest.length + 1) rest pt hlt (Nat.lt_succ_self _)]
    rfl

theorem processLines_unfold (acc : List Nat) (ls : List (List Nat)) (pt : List Nat × Err) :
    processLines acc ls pt =
      match readEvent [] ls pt with
      | (Except.error e, _) => if e = Err.eof then (acc, none) else ([], some e)
      | (Except.ok d, rest) =>
        if d = [] then processLines acc rest pt
        else if d = doneBytes then processLines acc rest pt
        else
          match decodeChunk d with
          | none => ([], some Err.corrupted)
          | some c =>
            processLines
              (c.Choices.foldl
                (fun a ch => if ch.Delta.Content ≠ [] then a ++ ch.Delta.Content else a)
                acc)
              rest pt := by
  rcases hre : readEvent [] ls pt with ⟨res, rest⟩
  cases res with
  | error e =>
    show processLoop (ls.length + 1) acc ls pt = _
    simp only [processLoop, hre]
  | ok d =>
    have hlt := readEvent_empty_buf_ok hre
    have hc : ∀ a, processLoop ls.length a rest pt = processLines a rest pt := fun a =>
      processLoop_congr ls.length (rest.length + 1) a rest pt hlt (Nat.lt_succ_self _)
    show processLoop (ls.length + 1) acc ls pt = _
    simp only [processLoop, hre]
    by_cases hd : d = []
    · simp only [if_pos hd, hc]
    · by_cases hdone : d = doneBytes
      · simp only [if_neg hd, if_pos hdone, hc]
      · simp only [if_neg hd, if_neg hdone]
        cases decodeChunk d with
        | none => rfl
        | some c => simp only [hc]

/-- The per-chunk fold of the source equals appending the chunk's
specification-side contribution. -/
theorem contrib_foldl (chs : List streamChoice) :
    ∀ acc, chs.foldl
        (fun a ch => if ch.Delta.Content ≠ [] then a ++ ch.Delta.Content else a) acc
      = acc ++ (chs.map (fun ch => ch.Delta.Content)).flatten := by
  induction chs with
  | nil => intro acc; simp
  | cons ch chs ih =>
    intro acc
    simp only [List.foldl_cons, List.map_cons, List.flatten_cons]
    by_cases hc : ch.Delta.Content = []
    · rw [if_neg (by simp [hc]), ih acc, hc]
      simp
    · rw [if_pos hc, ih (acc ++ ch.Delta.Content)]
      simp [List.append_assoc]

/-! ### Step lemmas for `aggEvents` -/

theorem aggEvents_cons_empty (ds : List (List Nat)) :
    aggEvents ([] :: ds) = aggEvents ds := by
  simp [aggEvents]

theorem aggEvents_cons_done (ds : List (List Nat)) :
    aggEvents (doneBytes :: ds) = aggEvents ds := by
  have h : doneBytes ≠ ([] : List Nat) := by simp [doneBytes]
  simp [aggEvents, h]

theorem aggEvents_cons_bad {d : List Nat} (hd : d ≠ []) (hdone : d ≠ doneBytes)
    (hdec : decodeChunk d = none) (ds : List (List Nat)) :
    aggEvents (d :: ds) = Except.error () := by
  simp only [aggEvents, if_neg hd, if_neg hdone, hdec]

theorem aggEvents_cons_chunk {d : List Nat} {c : streamResponse}
    (hd : d ≠ []) (hdone : d ≠ doneBytes) (hdec : decodeChunk d = some c)
    (ds : List (List Nat)) :
    aggEvents (d :: ds) = (aggEvents ds).map (fun r => specContent c ++ r) := by
  simp only [aggEvents, if_neg hd, if_neg hdone, hdec]

/-- Master decomposition: the aggregation loop equals the event-sequence
fold `aggEvents` finished by the terminal condition. -/
theorem processLines_agg :
    ∀ n ls, ls.length ≤ n → ∀ acc pt,
    processLines acc ls pt =
      match aggEvents (eventsLines ls pt) with
      | Except.error _ => ([], some Err.corrupted)
      | Except.ok r => if pt.2 = Err.eof then (acc ++ r, none) else ([], some pt.2) := by
  intro n
  induction n with
  | zero =>
    intro ls hl acc pt
    have hnil : ls = [] := List.length_eq_zero.mp (Nat.le_zero.mp hl)
    subst hnil
    rw [processLines_unfold, eventsLines_unfold]
    simp only [readEvent_nil_nil]
    by_cases ht : pt.2 = Err.eof <;> simp [aggEvents, ht]
  | succ n ih =>
    intro ls hl acc pt
    rw [processLines_unfold, eventsLines_unfold]
    rcases hre : readEvent [] ls pt with ⟨res, rest⟩
    cases res with
    | error e =>
      obtain ⟨he, -⟩ := readEvent_error_eq hre
      subst he
      simp only [hre]
      by_cases ht : pt.2 = Err.eof <;> simp [aggEvents, ht]
    | ok d =>
      have hlt := readEvent_empty_buf_ok hre
      have hrest : rest.length ≤ n := by omega
      simp only [hre]
      by_cases hd : d = []
      · subst hd
        rw [if_pos rfl, aggEvents_cons_empty]
        exact ih rest hrest acc pt
      · by_cases hdone : d = doneBytes
        · subst hdone
          rw [if_neg hd, if_pos rfl, aggEvents_cons_done]
          exact ih rest hrest acc pt
        · rw [if_neg hd, if_neg hdone]
          cases hdec : decodeChunk d with
          | none => rw [aggEvents_cons_bad hd hdone hdec]
          | some c =>
            rw [aggEvents_cons_chunk hd hdone hdec]
            simp only [ih rest hrest]
            cases hagg : aggEvents (eventsLines rest pt) with
            | error u => simp [Except.map]
            | ok r =>
              simp only [Except.map]
              by_cases ht : pt.2 = Err.eof
              · rw [if_pos ht, if_pos ht, contrib_foldl]
                simp [specContent, List.append_assoc]
              · rw [if_neg ht, if_neg ht]

/-! ### Whitespace and prefix facts -/

theorem trimSpace_eq_nil_iff {l : List Nat} :
    trimSpace l = [] ↔ ∀ b ∈ l, isAsciiSpace b := by
  unfold trimSpace
  constructor
  · intro h b hb
    have h1 : (l.dropWhile isAsciiSpace).reverse.dropWhile isAsciiSpace = [] := by
      rwa [List.reverse_eq_nil_iff] at h
    have h2 : ∀ x ∈ l.dropWhile isAsciiSpace, isAsciiSpace x := by
      intro x hx
      exact List.dropWhile_eq_nil_iff.mp h1 x (List.mem_reverse.mpr hx)
    rcases List.mem_append.mp
        (by rw [List.takeWhile_append_dropWhile]; exact hb :
          b ∈ l.takeWhile isAsciiSpace ++ l.dropWhile isAsciiSpace) with hb1 | hb2
    · exact List.mem_takeWhile_imp hb1
    · exact h2 b hb2
  · intro h
    have h1 : l.dropWhile isAsciiSpace = [] :=
      List.dropWhile_eq_nil_iff.mpr (fun x hx => h x hx)
    simp [h1]

theorem trimSpace_ne_nil {b : Nat} {bs : List Nat} (h : isAsciiSpace b = false) :
    trimSpace (b :: bs) ≠ [] := by
  intro hc
  have hb := trimSpace_eq_nil_iff.mp hc b (by simp)
  rw [h] at hb
  exact Bool.noConfusion hb

theorem dataMark_shape {l : List Nat} (h : dataMark.isPrefixOf l) :
    ∃ rest, l = dataMark ++ rest := by
  obtain ⟨t, ht⟩ := List.isPrefixOf_iff_prefix.mp h
  exact ⟨t, ht.symm⟩

theorem comment_shape {l : List Nat} (h : [58].isPrefixOf l) :
    ∃ rest, l = 58 :: rest := by
  obtain ⟨t, ht⟩ := List.isPrefixOf_iff_prefix.mp h
  exact ⟨t, by simpa using ht.symm⟩

theorem comment_not_data {l : List Nat} (h : [58].isPrefixOf l) :
    ¬ dataMark.isPrefixOf l := by
  obtain ⟨rest, hr⟩ := comment_shape h
  subst hr
  intro hd
  obtain ⟨r2, hr2⟩ := dataMark_shape hd
  simp [dataMark] at hr2

theorem comment_not_blank {l : List Nat} (h : [58].isPrefixOf l) :
    trimSpace l ≠ [] := by
  obtain ⟨rest, hr⟩ := comment_shape h
  subst hr
  exact trimSpace_ne_nil (by rfl)

theorem data_not_blank {l : List Nat} (h : dataMark.isPrefixOf l) :
    trimSpace l ≠ [] := by
  obtain ⟨rest, hr⟩ := dataMark_shape h
  subst hr
  exact trimSpace_ne_nil (by rfl)

theorem blank_not_data {l : List Nat} (h : trimSpace l = []) :
    ¬ dataMark.isPrefixOf l :=
  fun hd => data_not_blank hd h

/-! ### Byte-level composition -/

theorem readLines_eq (b : List Nat) (cs : List (List Nat)) (t : Err) :
    readLines b cs t = splitLinesP (b ++ cs.flatten) :=
  readLinesLoop_flat _ b cs t (Nat.lt_succ_self _)

theorem eventsStream_eq (cs : List (List Nat)) (t : Err) :
    eventsStream cs t =
      eventsLines (splitLinesP cs.flatten).1 ((splitLinesP cs.flatten).2, t) := by
  simp [eventsStream, readLines_eq]

theorem processStream_eq (cs : List (List Nat)) (t : Err) :
    processStream cs t =
      processLines [] (splitLinesP cs.flatten).1 ((splitLinesP cs.flatten).2, t) := by
  simp [processStream, readLines_eq]

/-! ### Payload characterisation of `readEvent` -/

theorem readEvent_ok_dataConcat {ls : List (List Nat)} :
    ∀ {buf pt d rest}, readEvent buf ls pt = (Except.ok d, rest) →
    ∃ pre, ls = pre ++ rest ∧ d = buf ++ dataConcat pre := by
  induction ls with
  | nil =>
    intro buf pt d rest h
    simp only [readEvent] at h
    split at h
    · simp at h
      obtain ⟨hd, hr⟩ := h
      exact ⟨[], by simp [hr], by simp [dataConcat, hd]⟩
    · simp at h
  | cons l ls ih =>
    intro buf pt d rest h
    simp only [readEvent] at h
    by_cases hcom : [58].isPrefixOf l
    · rw [if_pos hcom] at h
      obtain ⟨pre, hp, hd⟩ := ih h
      refine ⟨l :: pre, by simp [hp], ?_⟩
      have hnd : ¬ dataMark <+: l :=
        fun hp2 => comment_not_data hcom (List.isPrefixOf_iff_prefix.mpr hp2)
      simp [dataConcat, hnd, hd]
    · rw [if_neg hcom] at h
      by_cases hblank : trimSpace l = []
      · rw [if_pos hblank] at h
        have hnd : ¬ dataMark <+: l :=
          fun hp2 => blank_not_data hblank (List.isPrefixOf_iff_prefix.mpr hp2)
        by_cases hbuf : buf = []
        · rw [if_neg (not_not_intro hbuf)] at h
          obtain ⟨pre, hp, hd⟩ := ih h
          refine ⟨l :: pre, by simp [hp], ?_⟩
          simp [dataConcat, hnd, hd]
        · rw [if_pos hbuf] at h
          simp at h
          obtain ⟨hd, hr⟩ := h
          refine ⟨[l], by simp [hr], ?_⟩
          simp [dataConcat, hnd, hd.symm]
      · rw [if_neg hblank] at h
        by_cases hdata : dataMark.isPrefixOf l
        · rw [if_pos hdata] at h
          obtain ⟨pre, hp, hd⟩ := ih h
          refine ⟨l :: pre, by simp [hp], ?_⟩
          have hdata2 : dataMark <+: l := List.isPrefixOf_iff_prefix.mp hdata
          simp [dataConcat, hdata2, hd, List.append_assoc]
        · rw [if_neg hdata] at h
          obtain ⟨pre, hp, hd⟩ := ih h
          refine ⟨l :: pre, by simp [hp], ?_⟩
          have hnd : ¬ dataMark <+: l :=
            fun hp2 => hdata (List.isPrefixOf_iff_prefix.mpr hp2)
          simp [dataConcat, hnd, hd]

theorem readEvent_blank_step {l : List Nat} (hblank : trimSpace l = [])
    (buf : List Nat) (ls : List (List Nat)) (pt : List Nat × Err) :
    readEvent buf (l :: ls) pt =
      if buf = [] then readEvent buf ls pt else (Except.ok buf, ls) := by
  have hcom : ¬ [58].isPrefixOf l := fun hc => comment_not_blank hc hblank
  simp only [readEvent, if_neg hcom, if_pos hblank]
  by_cases hbuf : buf = []
  · rw [if_neg (not_not_intro hbuf), if_pos hbuf]
  · rw [if_pos hbuf, if_neg hbuf]

/-! ### Comment-line immunity at the line level -/

theorem readEvent_comment_ins {c : List Nat} (hc : [58].isPrefixOf c)
    (ls2 : List (List Nat)) :
    ∀ ls1 buf pt,
    (readEvent buf (ls1 ++ c :: ls2) pt).1 = (readEvent buf (ls1 ++ ls2) pt).1 ∧
    ((∃ a, (readEvent buf (ls1 ++ c :: ls2) pt).2 = a ++ c :: ls2 ∧
           (readEvent buf (ls1 ++ ls2) pt).2 = a ++ ls2 ∧ a.length < ls1.length) ∨
     (readEvent buf (ls1 ++ c :: ls2) pt).2 = (readEvent buf (ls1 ++ ls2) pt).2) := by
  intro ls1
  induction ls1 with
  | nil =>
    intro buf pt
    have hskip : readEvent buf (c :: ls2) pt = readEvent buf ls2 pt := by
      simp only [readEvent, if_pos hc]
    simp [hskip]
  | cons l ls1 ih =>
    intro buf pt
    have weaken :
        ∀ buf2,
        ((∃ a, (readEvent buf2 (ls1 ++ c :: ls2) pt).2 = a ++ c :: ls2 ∧
               (readEvent buf2 (ls1 ++ ls2) pt).2 = a ++ ls2 ∧ a.length < ls1.length) ∨
         (readEvent buf2 (ls1 ++ c :: ls2) pt).2 = (readEvent buf2 (ls1 ++ ls2) pt).2) →
        ((∃ a, (readEvent buf2 (ls1 ++ c :: ls2) pt).2 = a ++ c :: ls2 ∧
               (readEvent buf2 (ls1 ++ ls2) pt).2 = a ++ ls2 ∧
               a.length < (l :: ls1).length) ∨
         (readEvent buf2 (ls1 ++ c :: ls2) pt).2 = (readEvent buf2 (ls1 ++ ls2) pt).2) := by
      intro buf2 hyp
      rcases hyp with ⟨a, h1, h2, h3⟩ | heq
      · exact Or.inl ⟨a, h1, h2, by simp only [List.length_cons]; omega⟩
      · exact Or.inr heq
    simp only [List.cons_append, readEvent]
    by_cases h1 : [58].isPrefixOf l
    · simp only [if_pos h1]
      exact ⟨(ih buf pt).1, weaken buf (ih buf pt).2⟩
    · simp only [if_neg h1]
      by_cases hblank : trimSpace l = []
      · simp only [if_pos hblank]
        by_cases hbuf : buf = []
        · simp only [if_neg (not_not_intro hbuf)]
          exact ⟨(ih buf pt).1, weaken buf (ih buf pt).2⟩
        · simp only [if_pos hbuf]
          exact ⟨by simp, Or.inl ⟨ls1, by simp, by simp, by simp⟩⟩
      · simp only [if_neg hblank]
        by_cases hdata : dataMark.isPrefixOf l
        · simp only [if_pos hdata]
          exact ⟨(ih _ pt).1, weaken _ (ih _ pt).2⟩
        · simp only [if_neg hdata]
          exact ⟨(ih buf pt).1, weaken buf (ih buf pt).2⟩

theorem eventsLines_comment_ins {c : List Nat} (hc : [58].isPrefixOf c)
    (ls2 : List (List Nat)) (pt : List Nat × Err) :
    ∀ n ls1, ls1.length ≤ n →
    eventsLines (ls1 ++ c :: ls2) pt = eventsLines (ls1 ++ ls2) pt := by
  intro n
  induction n with
  | zero =>
    intro ls1 hl
    have hnil : ls1 = [] := List.length_eq_zero.mp (Nat.le_zero.mp hl)
    subst hnil
    rw [eventsLines_unfold, eventsLines_unfold]
    have hskip : readEvent [] (c :: ls2) pt = readEvent [] ls2 pt := by
      simp only [readEvent, if_pos hc]
    simp only [List.nil_append, hskip]
  | succ n ih =>
    intro ls1 hl
    rw [eventsLines_unfold, eventsLines_unfold]
    obtain ⟨hfst, hsnd⟩ := readEvent_comment_ins hc ls2 ls1 [] pt
    rcases hre1 : readEvent [] (ls1 ++ c :: ls2) pt with ⟨res1, rest1⟩
    rcases hre2 : readEvent [] (ls1 ++ ls2) pt with ⟨res2, rest2⟩
    rw [hre1, hre2] at hfst hsnd
    simp only at hfst hsnd
    subst hfst
    cases res1 with
    | error e => rfl
    | ok d =>
      rcases hsnd with ⟨a, h1, h2, h3⟩ | heq
      · subst h1; subst h2
        show d :: eventsLines (a ++ c :: ls2) pt = d :: eventsLines (a ++ ls2) pt
        rw [ih a (by omega)]
      · subst heq
        rfl

/-! ### Line splitting under append -/

theorem splitLinesP_append_whole :
    ∀ n (pre : List Nat), pre.length ≤ n → (splitLinesP pre).2 = [] →
    ∀ rest, splitLinesP (pre ++ rest) =
      ((splitLinesP pre).1 ++ (splitLinesP rest).1, (splitLinesP rest).2) := by
  intro n
  induction n with
  | zero =>
    intro pre hl hp rest
    have hnil : pre = [] := List.length_eq_zero.mp (Nat.le_zero.mp hl)
    subst hnil
    simp [splitLinesP]
  | succ n ih =>
    intro pre hl hp rest
    cases hsp : splitAtNL pre with
    | none =>
      rw [splitLinesP_of_none hsp] at hp
      subst hp
      simp [splitLinesP]
    | some p =>
      obtain ⟨l, r⟩ := p
      obtain ⟨hsum, hne⟩ := splitAtNL_some hsp
      have hrlen : r.length ≤ n := by
        have := congrArg List.length hsum
        simp only [List.length_append] at this
        have hlp : 0 < l.length := List.length_pos.mpr hne
        omega
      have hp2 : (splitLinesP r).2 = [] := by
        rw [splitLinesP_of_some hsp] at hp
        exact hp
      have hap : splitAtNL (pre ++ rest) = some (l, r ++ rest) :=
        splitAtNL_append_some hsp
      rw [splitLinesP_of_some hap, splitLinesP_of_some hsp, ih r hrlen hp2 rest]
      simp

/-- Appending newline-free bytes only extends the trailing partial line. -/
theorem splitLinesP_append_partial :
    ∀ n (bs : List Nat), bs.length ≤ n → ∀ tail, (10 : Nat) ∉ tail →
    splitLinesP (bs ++ tail) = ((splitLinesP bs).1, (splitLinesP bs).2 ++ tail) := by
  intro n
  induction n with
  | zero =>
    intro bs hl tail ht
    have hnil : bs = [] := List.length_eq_zero.mp (Nat.le_zero.mp hl)
    subst hnil
    simp [splitLinesP, splitLinesP_of_none (splitAtNL_none_of_no_nl ht)]
  | succ n ih =>
    intro bs hl tail ht
    cases hsp : splitAtNL bs with
    | none =>
      have hnt : (10 : Nat) ∉ bs ++ tail := by
        intro hmem
        rcases List.mem_append.mp hmem with h1 | h2
        · exact splitAtNL_none hsp h1
        · exact ht h2
      rw [splitLinesP_of_none hsp, splitLinesP_of_none (splitAtNL_none_of_no_nl hnt)]
    | some p =>
      obtain ⟨l, r⟩ := p
      obtain ⟨hsum, hne⟩ := splitAtNL_some hsp
      have hrlen : r.length ≤ n := by
        have := congrArg List.length hsum
        simp only [List.length_append] at this
        have hlp : 0 < l.length := List.length_pos.mpr hne
        omega
      have hap : splitAtNL (bs ++ tail) = some (l, r ++ tail) :=
        splitAtNL_append_some hsp
      rw [splitLinesP_of_some hap, splitLinesP_of_some hsp, ih r hrlen tail ht]

/-! ### Folding well-formed and corrupted event sequences -/

theorem aggEvents_all_good :
    ∀ evts : List (List Nat), (∀ p ∈ evts, goodPayload p) →
    aggEvents evts = Except.ok ((evts.map payloadContrib).flatten) := by
  intro evts
  induction evts with
  | nil => intro h; simp [aggEvents]
  | cons d ds ih =>
    intro h
    have hds : ∀ p ∈ ds, goodPayload p := fun p hp => h p (List.mem_cons_of_mem _ hp)
    by_cases hd0 : d = []
    · subst hd0
      rw [aggEvents_cons_empty, ih hds]
      simp [payloadContrib]
    · by_cases hdone : d = doneBytes
      · subst hdone
        rw [aggEvents_cons_done, ih hds]
        have hcontrib : payloadContrib doneBytes = [] := by
          simp [payloadContrib]
        simp [hcontrib]
      · have h3 : (decodeChunk d).isSome := by
          rcases h d (List.mem_cons_self _ _) with h1 | h2 | h3
          · exact absurd h1 hd0
          · exact absurd h2 hdone
          · exact h3
        obtain ⟨c, hdec⟩ := Option.isSome_iff_exists.mp h3
        rw [aggEvents_cons_chunk hd0 hdone hdec, ih hds]
        have hcontrib : payloadContrib d = specContent c := by
          simp [payloadContrib, hd0, hdone, hdec]
        simp [Except.map, hcontrib]

theorem aggEvents_first_bad :
    ∀ e1 : List (List Nat), ∀ {p : List Nat}, ∀ e2 : List (List Nat),
    (∀ q ∈ e1, goodPayload q) →
    p ≠ [] → p ≠ doneBytes → decodeChunk p = none →
    aggEvents (e1 ++ p :: e2) = Except.error () := by
  intro e1
  induction e1 with
  | nil =>
    intro p e2 _ hp hdone hdec
    rw [List.nil_append, aggEvents_cons_bad hp hdone hdec]
  | cons d ds ih =>
    intro p e2 h hp hdone hdec
    have hds : ∀ q ∈ ds, goodPayload q := fun q hq => h q (List.mem_cons_of_mem _ hq)
    rw [List.cons_append]
    by_cases hd0 : d = []
    · subst hd0
      rw [aggEvents_cons_empty, ih e2 hds hp hdone hdec]
    · by_cases hddone : d = doneBytes
      · subst hddone
        rw [aggEvents_cons_done, ih e2 hds hp hdone hdec]
      · have h3 : (decodeChunk d).isSome := by
          rcases h d (List.mem_cons_self _ _) with h1 | h2 | h3
          · exact absurd h1 hd0
          · exact absurd h2 hddone
          · exact h3
        obtain ⟨c, hdec2⟩ := Option.isSome_iff_exists.mp h3
        rw [aggEvents_cons_chunk hd0 hddone hdec2, ih e2 hds hp hdone hdec]
        rfl

/-! ### The partial line never influences events or the result -/

theorem readEvent_partial_irrel :
    ∀ (ls : List (List Nat)) (buf p1 p2 : List Nat) (t : Err),
    readEvent buf ls (p1, t) = readEvent buf ls (p2, t) := by
  intro ls
  induction ls with
  | nil => intro buf p1 p2 t; rfl
  | cons l ls ih =>
    intro buf p1 p2 t
    simp only [readEvent]
    by_cases h1 : [58].isPrefixOf l
    · simp only [if_pos h1]
      exact ih buf p1 p2 t
    · simp only [if_neg h1]
      by_cases hblank : trimSpace l = []
      · simp only [if_pos hblank]
        by_cases hbuf : buf ≠ []
        · simp only [if_pos hbuf]
        · simp only [if_neg hbuf]
          exact ih buf p1 p2 t
      · simp only [if_neg hblank]
        by_cases hdata : dataMark.isPrefixOf l
        · simp only [if_pos hdata]
          exact ih _ p1 p2 t
        · simp only [if_neg hdata]
          exact ih buf p1 p2 t

theorem eventsLines_partial_irrel :
    ∀ n (ls : List (List Nat)), ls.length ≤ n → ∀ (p1 p2 : List Nat) (t : Err),
    eventsLines ls (p1, t) = eventsLines ls (p2, t) := by
  intro n
  induction n with
  | zero =>
    intro ls hl p1 p2 t
    have hnil : ls = [] := List.length_eq_zero.mp (Nat.le_zero.mp hl)
    subst hnil
    rw [eventsLines_unfold, eventsLines_unfold, readEvent_nil_nil, readEvent_nil_nil]
  | succ n ih =>
    intro ls hl p1 p2 t
    rw [eventsLines_unfold, eventsLines_unfold, readEvent_partial_irrel ls [] p1 p2 t]
    rcases hre : readEvent [] ls (p2, t) with ⟨res, rest⟩
    cases res with
    | error e => rfl
    | ok d =>
      have hlt := readEvent_empty_buf_ok hre
      show d :: eventsLines rest (p1, t) = d :: eventsLines rest (p2, t)
      rw [ih rest (by omega) p1 p2 t]

/-! ### Tail congruence for the event fold -/

theorem aggEvents_congr_tail :
    ∀ (e1 : List (List Nat)) {x y : List (List Nat)}, aggEvents x = aggEvents y →
    aggEvents (e1 ++ x) = aggEvents (e1 ++ y) := by
  intro e1
  induction e1 with
  | nil => intro x y h; simpa using h
  | cons d ds ih =>
    intro x y h
    simp only [List.cons_append, List.append_eq, aggEvents, ih h]

theorem specContent_nil {c : streamResponse}
    (h : ∀ ch ∈ c.Choices, ch.Delta.Content = []) : specContent c = [] := by
  unfold specContent
  rw [List.flatten_eq_nil_iff]
  intro x hx
  obtain ⟨ch, hch, hcx⟩ := List.mem_map.mp hx
  rw [← hcx]
  exact h ch hch

/-! ### Claim theorems -/

/-- Claim C1: for every input stream whose framed event payloads are all
empty, exactly the terminator bytes `[DONE]`, or valid JSON chunk objects,
and whose underlying reads end cleanly, `processStream` returns with no
error the exact concatenation of every delta content fragment of every
non-terminator chunk, in framing order across chunks and choice-entry
order within a chunk; empty fragments contribute nothing. -/
theorem processStream_concat_of_wellFormed (cs : List (List Nat))
    (h : ∀ p ∈ eventsStream cs Err.eof, goodPayload p) :
    processStream cs Err.eof =
      (((eventsStream cs Err.eof).map payloadContrib).flatten, none) := by
  rw [eventsStream_eq] at h
  rw [processStream_eq,
    processLines_agg (splitLinesP cs.flatten).1.length _ (le_refl _) [] _,
    aggEvents_all_good _ h, eventsStream_eq]
  simp

/-- Claim C2: if any framed, non-empty, non-`[DONE]` event payload fails to
decode as JSON and every earlier payload was absorbable, `processStream`
returns the stream-corrupted error together with the empty string,
regardless of what follows the malformed payload. -/
theorem processStream_corrupted_on_bad_payload (cs : List (List Nat)) (t : Err)
    (e1 : List (List Nat)) (p : List Nat) (e2 : List (List Nat))
    (hev : eventsStream cs t = e1 ++ p :: e2)
    (hgood : ∀ q ∈ e1, goodPayload q)
    (hp : p ≠ []) (hdone : p ≠ doneBytes) (hdec : decodeChunk p = none) :
    processStream cs t = ([], some Err.corrupted) := by
  rw [eventsStream_eq] at hev
  rw [processStream_eq,
    processLines_agg (splitLinesP cs.flatten).1.length _ (le_refl _) [] _,
    hev, aggEvents_first_bad e1 e2 hgood hp hdone hdec]

/-- Claim C3: for every complete SSE byte sequence and every way of
splitting it into chunks delivered by successive reads, repeated
`readEvent` calls produce the identical sequence of event payloads as when
the whole text arrives in a single chunk. -/
theorem events_chunking_invariant (cs : List (List Nat)) (t : Err) :
    eventsStream cs t = eventsStream [cs.flatten] t := by
  rw [eventsStream_eq, eventsStream_eq]
  simp

/-- Claim C4: each event payload returned by `readEvent` is the
separator-free concatenation of the whitespace-trimmed remainders of the
`data: ` lines (prefix stripped) consumed since the previous event
boundary; a whitespace-only line ends the event exactly when the buffer is
non-empty, and is a no-op when the buffer is empty. -/
theorem readEvent_payload_is_dataConcat :
    (∀ (ls : List (List Nat)) (pt : List Nat × Err) (d : List Nat)
       (rest : List (List Nat)),
       readEvent [] ls pt = (Except.ok d, rest) →
       ∃ pre, ls = pre ++ rest ∧ d = dataConcat pre) ∧
    (∀ (buf l : List Nat) (ls : List (List Nat)) (pt : List Nat × Err),
       trimSpace l = [] →
       readEvent buf (l :: ls) pt =
         if buf = [] then readEvent buf ls pt else (Except.ok buf, ls)) := by
  constructor
  · intro ls pt d rest h
    obtain ⟨pre, hp, hd⟩ := readEvent_ok_dataConcat h
    exact ⟨pre, hp, by simpa using hd⟩
  · intro buf l ls pt hblank
    exact readEvent_blank_step hblank buf ls pt

/-- Claim C5: at end of input `readEvent` flushes a non-empty buffer once
as a final event and otherwise reports the terminal condition itself
(distinct from an event); consequently `processStream` on a zero-length
input stream returns the empty string with no error. -/
theorem readEvent_eof_flush_and_empty_stream :
    (∀ (buf p : List Nat) (t : Err),
       readEvent buf [] (p, t) =
         if t = Err.eof ∧ buf ≠ [] then (Except.ok buf, [])
         else (Except.error t, [])) ∧
    processStream [] Err.eof = ([], none) ∧
    eventsStream [] Err.eof = [] := by
  exact ⟨fun buf p t => rfl, rfl, rfl⟩

/-- Claim C6: inserting (equivalently, deleting) a comment line starting
with `:` at any line boundary leaves the sequence of event payloads
unchanged: no byte of the comment line appears in a payload and the
comment line neither starts nor terminates an event. -/
theorem comment_line_immunity (pre body post : List Nat) (t : Err)
    (hpre : (splitLinesP pre).2 = []) (hb : (10 : Nat) ∉ body) :
    eventsStream [pre ++ (58 :: (body ++ [10])) ++ post] t
      = eventsStream [pre ++ post] t := by
  have h10 : (10 : Nat) ∉ 58 :: body := by
    simp only [List.mem_cons, not_or]
    exact ⟨by decide, hb⟩
  have hcl : splitAtNL (58 :: (body ++ [10])) = some (58 :: (body ++ [10]), []) := by
    have h2 := splitAtNL_of_no_nl ([] : List Nat) h10
    simpa using h2
  have hsplitc : splitLinesP (58 :: (body ++ [10])) = ([58 :: (body ++ [10])], []) := by
    rw [splitLinesP_of_some hcl]
    simp [splitLinesP]
  rw [eventsStream_eq, eventsStream_eq]
  simp only [List.flatten_cons, List.flatten_nil, List.append_nil]
  rw [List.append_assoc pre (58 :: (body ++ [10])) post]
  rw [splitLinesP_append_whole pre.length pre (le_refl _) hpre
    ((58 :: (body ++ [10])) ++ post)]
  rw [splitLinesP_append_whole (58 :: (body ++ [10])).length _ (le_refl _)
    (by rw [hsplitc]) post]
  rw [splitLinesP_append_whole pre.length pre (le_refl _) hpre post]
  rw [hsplitc]
  have hc : [58].isPrefixOf (58 :: (body ++ [10])) := by
    simp [List.isPrefixOf]
  have hins := eventsLines_comment_ins hc (splitLinesP post).1
    ((splitLinesP post).2, t) (splitLinesP pre).1.length (splitLinesP pre).1 (le_refl _)
  simpa using hins

/-- Claim C7: empty payloads, the `[DONE]` sentinel, chunks whose choices
list is empty, and chunks all of whose content fragments are empty are
absorbed without error and contribute nothing; the loop keeps folding
every event the framer delivers (also those framed after `[DONE]`) and a
stream without `[DONE]` aggregates the same way up to the terminal
condition. -/
theorem nonfatal_payloads_absorbed :
    (∀ e1 e2 : List (List Nat), aggEvents (e1 ++ [] :: e2) = aggEvents (e1 ++ e2)) ∧
    (∀ e1 e2 : List (List Nat),
       aggEvents (e1 ++ doneBytes :: e2) = aggEvents (e1 ++ e2)) ∧
    (∀ (e1 e2 : List (List Nat)) (p : List Nat) (c : streamResponse),
       decodeChunk p = some c → (∀ ch ∈ c.Choices, ch.Delta.Content = []) →
       aggEvents (e1 ++ p :: e2) = aggEvents (e1 ++ e2)) ∧
    (∀ (ls : List (List Nat)) (pt : List Nat × Err),
       processLines [] ls pt = aggResult (eventsLines ls pt) pt.2) := by
  refine ⟨?_, ?_, ?_, ?_⟩
  · intro e1 e2
    exact aggEvents_congr_tail e1 (aggEvents_cons_empty e2)
  · intro e1 e2
    exact aggEvents_congr_tail e1 (aggEvents_cons_done e2)
  · intro e1 e2 p c hdec hcont
    refine aggEvents_congr_tail e1 ?_
    by_cases hp0 : p = []
    · subst hp0; exact aggEvents_cons_empty e2
    · by_cases hpd : p = doneBytes
      · subst hpd; exact aggEvents_cons_done e2
      · rw [aggEvents_cons_chunk hp0 hpd hdec, specContent_nil hcont]
        cases aggEvents e2 <;> simp [Except.map]
  · intro ls pt
    rw [processLines_agg ls.length ls (le_refl _) [] pt]
    unfold aggResult
    cases aggEvents (eventsLines ls pt) <;> simp

/-- Claim C8: a read failure other than clean end-of-input is propagated by
`readEvent` as the very same error value (readEvent only ever reports the
stream's terminal condition), and `processStream` then returns that same
error value unchanged together with the empty string, provided no
corrupted payload aborted the loop first. -/
theorem transport_error_propagated :
    (∀ (buf : List Nat) (ls : List (List Nat)) (pt : List Nat × Err)
       (e : Err) (rest : List (List Nat)),
       readEvent buf ls pt = (Except.error e, rest) → e = pt.2 ∧ rest = []) ∧
    (∀ (buf p : List Nat) (t : Err), t ≠ Err.eof →
       readEvent buf [] (p, t) = (Except.error t, [])) ∧
    (∀ (ls : List (List Nat)) (p : List Nat) (t : Err) (r : List Nat),
       t ≠ Err.eof → aggEvents (eventsLines ls (p, t)) = Except.ok r →
       processLines [] ls (p, t) = ([], some t)) := by
  refine ⟨fun buf ls pt e rest h => readEvent_error_eq h, ?_, ?_⟩
  · intro buf p t ht
    have : ¬ ((p, t).2 = Err.eof ∧ buf ≠ []) := by
      intro hc
      exact ht hc.1
    simp only [readEvent, if_neg this]
  · intro ls p t r ht hagg
    rw [processLines_agg ls.length ls (le_refl _) [] (p, t), hagg]
    simp [ht]

/-- Claim C9: when the input ends in an incomplete line (no terminating
newline), those trailing bytes are discarded entirely — they never appear
in any event payload, even a well-formed `data: ` line, and never change
the aggregated result. -/
theorem trailing_partial_line_discarded (bs tail : List Nat) (t : Err)
    (h : (10 : Nat) ∉ tail) :
    eventsStream [bs ++ tail] t = eventsStream [bs] t ∧
    processStream [bs ++ tail] t = processStream [bs] t := by
  have hsp := splitLinesP_append_partial bs.length bs (le_refl _) tail h
  have hev : eventsStream [bs ++ tail] t = eventsStream [bs] t := by
    rw [eventsStream_eq, eventsStream_eq]
    simp only [List.flatten_cons, List.flatten_nil, List.append_nil]
    rw [hsp]
    exact eventsLines_partial_irrel (splitLinesP bs).1.length _ (le_refl _) _ _ t
  refine ⟨hev, ?_⟩
  rw [processStream_eq, processStream_eq]
  simp only [List.flatten_cons, List.flatten_nil, List.append_nil]
  rw [hsp]
  rw [processLines_agg (splitLinesP bs).1.length _ (le_refl _) [] _,
    processLines_agg (splitLinesP bs).1.length _ (le_refl _) [] _]
  rw [eventsLines_partial_irrel (splitLinesP bs).1.length _ (le_refl _)
    ((splitLinesP bs).2 ++ tail) (splitLinesP bs).2 t]

/-- Claim C10: a line that begins with `data:` but not with the six bytes
`data: ` is not a data line: it is ignored entirely, contributes no bytes
to any payload, and neither starts nor ends an event. -/
theorem data_line_needs_space (buf : List Nat) (ls : List (List Nat))
    (pt : List Nat × Err) (l rest : List Nat)
    (hshape : l = [100, 97, 116, 97, 58] ++ rest)
    (hns : ¬ dataMark.isPrefixOf l) :
    readEvent buf (l :: ls) pt = readEvent buf ls pt := by
  subst hshape
  have hcom : ¬ [58].isPrefixOf ([100, 97, 116, 97, 58] ++ rest) := by
    simp [List.isPrefixOf]
  have hblank : trimSpace ([100, 97, 116, 97, 58] ++ rest) ≠ [] := by
    have : ([100, 97, 116, 97, 58] ++ rest : List Nat)
        = 100 :: (97 :: 116 :: 97 :: 58 :: rest) := by simp
    rw [this]
    exact trimSpace_ne_nil (by rfl)
  simp only [readEvent, if_neg hcom, if_neg hblank, if_neg hns]

/-! ### Concrete witness streams

`wBytes1` is the SSE text
`data: {"choices":[{"delta":{"content":"Hi"}}]}\n\ndata: [DONE]\n\n`,
`wBytes2` is `data: {bad\n\n`, `wChunk7` is `{"choices":[]}`,
`wBytes9`/`wTail9` are `data: hi\n\n` and the unterminated `data: x`. -/

def wBytes1 : List Nat :=
  [100, 97, 116, 97, 58, 32, 123, 34, 99, 104, 111, 105, 99, 101, 115, 34, 58,
   91, 123, 34, 100, 101, 108, 116, 97, 34, 58, 123, 34, 99, 111, 110, 116,
   101, 110, 116, 34, 58, 34, 72, 105, 34, 125, 125, 93, 125, 10, 10,
   100, 97, 116, 97, 58, 32, 91, 68, 79, 78, 69, 93, 10, 10]

def wBytes2 : List Nat := [100, 97, 116, 97, 58, 32, 123, 98, 97, 100, 10, 10]

def wChunk7 : List Nat :=
  [123, 34, 99, 104, 111, 105, 99, 101, 115, 34, 58, 91, 93, 125]

def wBody6 : List Nat := [32, 107, 101, 101, 112]

def wPost6 : List Nat := [100, 97, 116, 97, 58, 32, 104, 105, 10, 10]

def wBytes9 : List Nat := [100, 97, 116, 97, 58, 32, 104, 105, 10, 10]

def wTail9 : List Nat := [100, 97, 116, 97, 58, 32, 120]

set_option maxRecDepth 1000000

/-- Witness for C1 at a concrete two-event stream with terminator. -/
theorem processStream_concat_of_wellFormed_witness :
    (∀ p ∈ eventsStream [wBytes1] Err.eof, goodPayload p) ∧
    processStream [wBytes1] Err.eof =
      (((eventsStream [wBytes1] Err.eof).map payloadContrib).flatten, none) :=
  ⟨by decide, processStream_concat_of_wellFormed [wBytes1] (by decide)⟩

/-- Witness for C2 at a stream with one malformed payload. -/
theorem processStream_corrupted_on_bad_payload_witness :
    eventsStream [wBytes2] Err.eof = [] ++ [123, 98, 97, 100] :: [] ∧
    ([123, 98, 97, 100] : List Nat) ≠ [] ∧
    ([123, 98, 97, 100] : List Nat) ≠ doneBytes ∧
    decodeChunk [123, 98, 97, 100] = none ∧
    processStream [wBytes2] Err.eof = ([], some Err.corrupted) :=
  ⟨by decide, by decide, by decide, by decide,
   processStream_corrupted_on_bad_payload [wBytes2] Err.eof [] [123, 98, 97, 100] []
     (by decide) (by decide) (by decide) (by decide) (by decide)⟩

/-- Witness for C4: a `data: hi` line followed by a blank line frames the
payload `hi`, and a blank line with a non-empty buffer ends the event. -/
theorem readEvent_payload_is_dataConcat_witness :
    (∃ pre, ([[100, 97, 116, 97, 58, 32, 104, 105, 10], [10]] : List (List Nat))
        = pre ++ [] ∧ ([104, 105] : List Nat) = dataConcat pre) ∧
    readEvent [104] ([10] :: []) ([], Err.eof) =
      (if ([104] : List Nat) = [] then readEvent [104] [] ([], Err.eof)
       else (Except.ok [104], [])) :=
  ⟨readEvent_payload_is_dataConcat.1
     [[100, 97, 116, 97, 58, 32, 104, 105, 10], [10]] ([], Err.eof)
     [104, 105] [] rfl,
   readEvent_payload_is_dataConcat.2 [104] [10] [] ([], Err.eof) (by decide)⟩

/-- Witness for C6 at a concrete keep-alive comment insertion. -/
theorem comment_line_immunity_witness :
    (splitLinesP ([] : List Nat)).2 = [] ∧ (10 : Nat) ∉ wBody6 ∧
    eventsStream [([] : List Nat) ++ (58 :: (wBody6 ++ [10])) ++ wPost6] Err.eof
      = eventsStream [([] : List Nat) ++ wPost6] Err.eof :=
  ⟨by decide, by decide,
   comment_line_immunity [] wBody6 wPost6 Err.eof (by decide) (by decide)⟩

/-- Witness for C7 at an empty-choices chunk between a terminator and an
empty payload. -/
theorem nonfatal_payloads_absorbed_witness :
    decodeChunk wChunk7 = some ⟨[], [], 0, [], none⟩ ∧
    aggEvents ([doneBytes] ++ wChunk7 :: [[]]) = aggEvents ([doneBytes] ++ [[]]) :=
  ⟨by decide,
   nonfatal_payloads_absorbed.2.2.1 [doneBytes] [[]] wChunk7 ⟨[], [], 0, [], none⟩
     (by decide) (by decide)⟩

/-- Witness for C8 at a concrete transport error value. -/
theorem transport_error_propagated_witness :
    (Err.other 7 = (([], Err.other 7) : List Nat × Err).2 ∧
      ([] : List (List Nat)) = []) ∧
    readEvent [] [] ([], Err.other 7) = (Except.error (Err.other 7), []) ∧
    processLines [] [] ([], Err.other 7) = ([], some (Err.other 7)) :=
  ⟨transport_error_propagated.1 [] [] ([], Err.other 7) (Err.other 7) [] rfl,
   transport_error_propagated.2.1 [] [] (Err.other 7) (by decide),
   transport_error_propagated.2.2 [] [] (Err.other 7) [] (by decide) rfl⟩

/-- Witness for C9 at a stream ending in an unterminated `data: x` line. -/
theorem trailing_partial_line_discarded_witness :
    (10 : Nat) ∉ wTail9 ∧
    (eventsStream [wBytes9 ++ wTail9] Err.eof = eventsStream [wBytes9] Err.eof ∧
     processStream [wBytes9 ++ wTail9] Err.eof = processStream [wBytes9] Err.eof) :=
  ⟨by decide, trailing_partial_line_discarded wBytes9 wTail9 Err.eof (by decide)⟩

/-- Witness for C10 at the line `data:x` (no space after the colon). -/
theorem data_line_needs_space_witness :
    ([100, 97, 116, 97, 58, 120] : List Nat) = [100, 97, 116, 97, 58] ++ [120] ∧
    ¬ dataMark.isPrefixOf [100, 97, 116, 97, 58, 120] ∧
    readEvent [] [[100, 97, 116, 97, 58, 120]] ([], Err.eof)
      = readEvent [] [] ([], Err.eof) :=
  ⟨rfl, by decide,
   data_line_needs_space [] [] ([], Err.eof) [100, 97, 116, 97, 58, 120] [120]
     rfl (by decide)⟩
